import Mathlib

set_option maxRecDepth 20000

/-!
Formal model of the steganography core of Audio_Steganography.py.

The Python source operates on numpy arrays of signed 16-bit samples.  The
model uses:
  - List ℤ for sample buffers (each sample an integer; the int16 range
    [-32768, 32767] appears as an explicit hypothesis where it matters);
  - List ℕ for byte buffers (each byte < 256) and for bit arrays (0/1);
  - ℚ for the floating-point intermediate buffers of the DSP encoders
    (float32/float64 in the source; on the integer-valued quantities the
    source manipulates here, float arithmetic is exact, see the comments
    on each encoder);
  - Option (parse failures) and explicit outcome constructors (uncaught
    exceptions) for the error paths.

Function and constant names follow the source (methods of the
AudioStegoApp class, with the GUI state passed as explicit arguments).
-/

/-! Bit-packing utilities (numpy unpackbits / packbits, MSB-first). -/

/-- Bits of one byte, MSB first, as produced by np.unpackbits for a single
uint8 value: 0x4D becomes [0,1,0,0,1,1,0,1]. -/
def byteToBits (b : ℕ) : List ℕ :=
  [b / 128 % 2, b / 64 % 2, b / 32 % 2, b / 16 % 2,
   b / 8 % 2, b / 4 % 2, b / 2 % 2, b % 2]

/-- Model of np.unpackbits: expand each byte into 8 bits, MSB first. -/
def unpackbits (bytes : List ℕ) : List ℕ :=
  bytes.flatMap byteToBits

/-- Final (possibly short) group of bits packed into one byte; np.packbits
pads a short group with zero bits on the right. -/
def bitsToByte (l : List ℕ) : ℕ :=
  (l.foldl (fun a b => 2 * a + b) 0) * 2 ^ (8 - l.length)

/-- Model of np.packbits: group every 8 bits into one byte, MSB first; a
final short group is padded with zeros on the right. -/
def packbits : List ℕ → List ℕ
  | b0 :: b1 :: b2 :: b3 :: b4 :: b5 :: b6 :: b7 :: rest =>
      (128 * b0 + 64 * b1 + 32 * b2 + 16 * b3 + 8 * b4 + 4 * b5 + 2 * b6 + b7)
        :: packbits rest
  | [] => []
  | l => [bitsToByte l]

/-- Bit 0 of a sample: audio & 1 in the source (numpy bitwise AND on int16,
which for an integer s is the mathematical s mod 2). -/
def lsbOf (s : ℤ) : ℕ := (s % 2).toNat

/-- Overwrite bit 0 of a sample with a bit b ∈ {0,1}: the source's
(s & ~1) | b, which for b ∈ {0,1} equals s - s mod 2 + b. -/
def set_lsb (s : ℤ) (b : ℕ) : ℤ := s - s % 2 + b

/-- Slice assignment audio[:len(bits)] = (audio[:len(bits)] & ~1) | bits:
the first bits.length samples get their LSB replaced, the rest are kept.
(The source only executes this when bits.length ≤ audio.length.) -/
def lsb_write (audio : List ℤ) (bits : List ℕ) : List ℤ :=
  List.zipWith set_lsb audio bits ++ audio.drop bits.length

/-! Smart Header codec (create_smart_header / read_smart_header). -/

/-- First 13 header bytes: struct.pack('<2sBHHHI', b'st', algo_id, p1, p2,
p3, payload_len), little-endian.  struct.pack requires each field to be in
range (u8/u16/u32); the reduction mod 256 below is the byte decomposition
of an in-range value (theorems about the header carry the range
hypotheses). -/
def header_data (algo_id p1 p2 p3 payload_len : ℕ) : List ℕ :=
  [115, 116, algo_id % 256,
   p1 % 256, p1 / 256 % 256,
   p2 % 256, p2 / 256 % 256,
   p3 % 256, p3 / 256 % 256,
   payload_len % 256, payload_len / 256 % 256,
   payload_len / 65536 % 256, payload_len / 16777216 % 256]

/-- Model of create_smart_header: the 13 data bytes followed by the 2-byte
little-endian checksum sum(data) & 0xFFFF.  Returns 15 bytes. -/
def create_smart_header (algo_id p1 p2 p3 payload_len : ℕ) : List ℕ :=
  let data := header_data algo_id p1 p2 p3 payload_len
  let checksum := data.sum % 65536
  data ++ [checksum % 256, checksum / 256 % 256]

/-- Parsed Smart Header fields, the dict returned by read_smart_header. -/
structure SmartHeader where
  algo_id : ℕ
  p1 : ℕ
  p2 : ℕ
  p3 : ℕ
  payload_len : ℕ
deriving DecidableEq, Repr

/-- Validation half of read_smart_header on the 15 reassembled header
bytes: struct.unpack('<2sBHHHIH') little-endian, then reject unless the
magic is b'st' (bytes 115, 116) and the 16-bit checksum of the first 13
bytes equals the trailing 2-byte value; the parsed fields otherwise. -/
def parse_header_bytes (hb : List ℕ) : Option SmartHeader :=
  if hb.getD 0 0 = 115 ∧ hb.getD 1 0 = 116 then
    if (hb.take 13).sum % 65536 = hb.getD 13 0 + 256 * hb.getD 14 0 then
      some ⟨hb.getD 2 0,
            hb.getD 3 0 + 256 * hb.getD 4 0,
            hb.getD 5 0 + 256 * hb.getD 6 0,
            hb.getD 7 0 + 256 * hb.getD 8 0,
            hb.getD 9 0 + 256 * hb.getD 10 0 + 65536 * hb.getD 11 0
              + 16777216 * hb.getD 12 0⟩
    else none
  else none

/-- Model of read_smart_header: if the audio has fewer than 120 samples
return None; otherwise take the LSB of the first 120 samples, pack them
into 15 bytes and validate/unpack them.  (The source wraps the body in
try/except; for ≥ 120 samples none of the numpy/struct calls can raise,
so the except branch is dead.) -/
def read_smart_header (audio : List ℤ) : Option SmartHeader :=
  if audio.length < 120 then none
  else parse_header_bytes (packbits ((audio.take 120).map lsbOf))

/-! Capacity calculator (get_max_kb) and the GUI capacity gate. -/

/-- Algorithm selected in the GUI, with the encoder parameters the source
reads from the corresponding widgets (echo chunk size, delays, alpha).
Phase and DSSS parameters are hard-coded in the source. -/
inductive AlgoSel where
  | lsb : AlgoSel
  | echo (chunk_size d0 d1 : ℕ) (alpha : ℚ) : AlgoSel
  | phase : AlgoSel
  | dsss : AlgoSel

/-- bytes_avail as computed inside get_max_kb for each algorithm branch
(header_bytes = 4 is subtracted in every branch; the value may be
negative, hence ℤ). -/
def bytes_avail (total_samples : ℕ) : AlgoSel → ℤ
  | AlgoSel.lsb => (total_samples / 8 : ℕ) - 4
  | AlgoSel.echo chunk_len _ _ _ => (total_samples / chunk_len / 8 : ℕ) - 4
  | AlgoSel.phase => (total_samples / 256 : ℕ) - 4
  | AlgoSel.dsss => (total_samples / 8192 / 8 : ℕ) - 4

/-- Model of get_max_kb: max(0, bytes_avail / 1024), in kilobytes. -/
def get_max_kb (total_samples : ℕ) (algo : AlgoSel) : ℚ :=
  max 0 ((bytes_avail total_samples algo : ℚ) / 1024)

/-- Decision of update_capacity_check: the encode buttons are disabled
(the payload is rejected) exactly when payload_kb + header_kb > limit_kb,
with payload_kb = payload size / 1024, header_kb = 32/1024 and limit_kb =
get_max_kb. -/
def update_capacity_check_rejects (payload_size total_samples : ℕ)
    (algo : AlgoSel) : Prop :=
  get_max_kb total_samples algo
    < (payload_size : ℚ) / 1024 + 32 / 1024

instance (payload_size total_samples : ℕ) (algo : AlgoSel) :
    Decidable (update_capacity_check_rejects payload_size total_samples algo) := by
  unfold update_capacity_check_rejects
  infer_instance

/-! LSB codec (algo_lsb_encode / algo_lsb_decode). -/

/-- Model of algo_lsb_encode: clip the bit array to the samples available
after start_index, then overwrite the LSBs of that slice. -/
def algo_lsb_encode (audio : List ℤ) (bits : List ℕ) (start_index : ℕ) :
    List ℤ :=
  let available := audio.length - start_index
  let bits := if available < bits.length then bits.take available else bits
  audio.take start_index ++ lsb_write (audio.drop start_index) bits

/-- Model of algo_lsb_decode: audio[start_index:] & 1. -/
def algo_lsb_decode (audio : List ℤ) (start_index : ℕ) : List ℕ :=
  (audio.drop start_index).map lsbOf

/-! Float clipping and int16 cast shared by the DSP encoders. -/

/-- Cast of one integer sample to the rational modelling its float value
(astype(np.float32) / astype(np.float64) are exact on int16 samples). -/
def toQ (z : ℤ) : ℚ := (z : ℚ)

/-- np.clip(q, -32768, 32767) on a rational (float) value. -/
def clipQ (q : ℚ) : ℚ := max (-32768) (min 32767 q)

/-- astype(np.int16) on a clipped value: C float-to-int conversion
truncates toward zero. -/
def trunc16 (q : ℚ) : ℤ := if q < 0 then -(-q.num / q.den) else q.num / q.den

/-- Clip to [-32768, 32767] and cast to int16, the final step
np.clip(output, -32768, 32767).astype(np.int16) of each DSP encoder. -/
def quantize (q : ℚ) : ℤ := trunc16 (clipQ q)

/-- Integer clip, np.clip on an integer-valued buffer (used for the DSSS
encoder, whose float arithmetic is exact on integers). -/
def clip16 (z : ℤ) : ℤ := max (-32768) (min 32767 z)

/-- Pointwise update of a list by position: element i becomes f i x.  Used
to model numpy slice assignments and in-place additions on a region. -/
def applyIdx (f : ℕ → α → α) : List α → ℕ → List α
  | [], _ => []
  | a :: t, i => f i a :: applyIdx f t (i + 1)

/-! Echo-Hiding encoder (algo_echo_encode).  The source adds, chunk by
chunk, the echo lfilter(kernel, 1.0, chunk) to a float32 copy of the
audio, where kernel is zero except kernel[delay] = alpha; for such an FIR
kernel, lfilter yields echo[n] = alpha * chunk[n - delay] for n ≥ delay
and 0 before.  Reading the chunk from the original integer audio and the
echo addition are modelled exactly over ℚ (float32 is not modelled;
the properties proved about this encoder do not depend on rounding). -/

/-- Loop for i, bit in enumerate(bits) of algo_echo_encode: for each bit
add the echo of chunk i to the output region of chunk i, stopping (break)
if the chunk would overrun the buffer.  d is delay_0 for bit 0 and
delay_1 otherwise; the echo sample added at absolute index j of chunk
[cs, cs + chunk_size) is alpha * audio[j - d], present when j - cs ≥ d. -/
def echo_loop (audio : List ℤ) (alpha : ℚ) (chunk_size d0 d1 start : ℕ) :
    List ℕ → ℕ → List ℚ → List ℚ
  | [], _, output => output
  | bit :: rest, i, output =>
    let cs := start + i * chunk_size
    let d := if bit = 0 then d0 else d1
    if cs + chunk_size ≤ audio.length then
      echo_loop audio alpha chunk_size d0 d1 start rest (i + 1)
        (applyIdx (fun j a =>
          if cs ≤ j ∧ j < cs + chunk_size ∧ cs + d ≤ j then
            a + alpha * ((audio.getD (j - d) 0 : ℤ) : ℚ)
          else a) output 0)
    else output

/-- Model of algo_echo_encode: clip the bit array to the chunks available
after start_offset (returning the audio unchanged if no chunk fits), add
one echo per chunk, then clip and cast the whole buffer back to int16. -/
def algo_echo_encode (audio : List ℤ) (bits : List ℕ)
    (chunk_size d0 d1 : ℕ) (alpha : ℚ) (start_offset : ℕ) : List ℤ :=
  if start_offset + bits.length * chunk_size > audio.length then
    if (audio.length - start_offset) / chunk_size = 0 then audio
    else
      (echo_loop audio alpha chunk_size d0 d1 start_offset
        (bits.take ((audio.length - start_offset) / chunk_size)) 0
        (audio.map toQ)).map quantize
  else
    (echo_loop audio alpha chunk_size d0 d1 start_offset
      bits 0 (audio.map toQ)).map quantize

/-! Phase-Coding encoder (algo_phase_encode).  Each 256-sample segment is
replaced by irfft of its rfft spectrum with the phases of bins 20..27
forced to ±π/2 (and their magnitudes raised to at least 500).  That
spectral rewrite is a real-valued transform of the segment consuming the
next (up to) 8 bits; it is kept as an explicit parameter segT of the
model, since its output values involve transcendental arithmetic that a
rational model cannot express, and no claim below depends on them — only
on which samples the rewrite touches.  numpy guarantees the rewritten
segment (irfft with n=256) has exactly the segment's length, which is how
the slice assignment output[pos:pos+256] = ... succeeds; the model writes
the transformed segment into the same slot pointwise. -/

/-- While loop of algo_phase_encode: as long as bits remain and a full
256-sample segment fits, replace output[pos:pos+256] by the transformed
segment segT(segment, next ≤ 8 bits) and advance.  With start_bin = 20
and 129 one-sided bins, the inner loop always consumes min(8, remaining)
bits, i.e. take 8 / drop 8. -/
def phase_loop (segT : List ℚ → List ℕ → List ℚ) :
    List ℚ → List ℕ → ℕ → List ℚ
  | output, [], _ => output
  | output, b :: t, pos =>
    if pos + 256 ≤ output.length then
      phase_loop segT
        (applyIdx (fun j a =>
          if pos ≤ j ∧ j < pos + 256 then
            (segT ((output.drop pos).take 256) ((b :: t).take 8)).getD (j - pos) 0
          else a) output 0)
        ((b :: t).drop 8) (pos + 256)
    else output
termination_by _ bits _ => bits.length
decreasing_by simp; omega

/-- Model of algo_phase_encode: float64 copy, segment loop from
start_offset, then clip and cast back to int16. -/
def algo_phase_encode (segT : List ℚ → List ℕ → List ℚ)
    (audio : List ℤ) (bits : List ℕ) (start_offset : ℕ) : List ℤ :=
  (phase_loop segT (audio.map toQ) bits start_offset).map quantize

/-! DSSS codec (algo_spread_spectrum_encode / _decode).  Both sides build
the same pseudo-noise array spread_seq =
(np.random.default_rng(seed=12345).integers(0, 2, frame_size) * 2 - 1),
a ±1 sequence that is bit-identical between encoder and decoder because
the seed is fixed.  The library generator is modelled as an explicit
parameter pn : ℕ → ℤ (the value of spread_seq at each index), the same
function on both sides; theorems assume only what the construction
guarantees, pn i ∈ {-1, 1}.  alpha = 500.0 and the samples are integers,
so the float32 arithmetic of the encoder is exact and is modelled over
ℤ. -/

/-- Loop for i, bit in enumerate(bits) of algo_spread_spectrum_encode:
add alpha * pn to the frame of bit i when the bit is 1, subtract it
otherwise; break if the frame would overrun the buffer. -/
def sse_loop (pn : ℕ → ℤ) (audio_len start frame_size : ℕ) :
    List ℕ → ℕ → List ℤ → List ℤ
  | [], _, output => output
  | bit :: rest, i, output =>
    let fs := start + i * frame_size
    if fs + frame_size ≤ audio_len then
      sse_loop pn audio_len start frame_size rest (i + 1)
        (applyIdx (fun j a =>
          if fs ≤ j ∧ j < fs + frame_size then
            a + (if bit = 1 then 500 else -500) * pn (j - fs)
          else a) output 0)
    else output

/-- Model of algo_spread_spectrum_encode: clip the bit array to the frames
available after start_offset (returning the audio unchanged if no frame
fits), add ±500·pn per frame, then clip to int16. -/
def algo_spread_spectrum_encode (pn : ℕ → ℤ) (audio : List ℤ)
    (bits : List ℕ) (start_offset frame_size : ℕ) : List ℤ :=
  if start_offset + bits.length * frame_size > audio.length then
    if (bits.take ((audio.length - start_offset) / frame_size)).length = 0 then audio
    else (sse_loop pn audio.length start_offset frame_size
      (bits.take ((audio.length - start_offset) / frame_size)) 0 audio).map clip16
  else (sse_loop pn audio.length start_offset frame_size bits 0 audio).map clip16

/-- Model of algo_spread_spectrum_decode: one bit per complete frame after
start_offset; bit 1 iff the correlation sum(frame * pn) / frame_size is
≥ 0.  (The source computes the correlation in float32; the model is
exact.  The while loop runs once per complete frame, i.e.
(len - start) / frame_size times for frame_size > 0.) -/
def algo_spread_spectrum_decode (pn : ℕ → ℤ) (audio : List ℤ)
    (start_offset frame_size : ℕ) : List ℕ :=
  (List.range ((audio.length - start_offset) / frame_size)).map (fun i =>
    if 0 ≤ (((List.range frame_size).map (fun k =>
          (audio.getD (start_offset + i * frame_size + k) 0 * pn k : ℤ))).sum : ℚ)
        / (frame_size : ℚ)
    then 1 else 0)

/-! Orchestrator (process_steganography). -/

/-- HEADER_OFFSET constant of the source. -/
def HEADER_OFFSET : ℕ := 1000

/-- Outcome of one process_steganography call on a given carrier and
payload.  The only abnormal exit on this path is the too-short branch:
it runs self.update_status("Error: Audio too short."), but update_status
is defined nowhere in the class, so the call raises AttributeError and
the following return None is unreachable — the exception propagates to
the caller (no call site wraps process_steganography in try/except).
attributeError models that uncaught exception; ok carries the returned
stego buffer. -/
inductive EncodeResult where
  | attributeError : EncodeResult
  | ok (stego : List ℤ) : EncodeResult
deriving DecidableEq, Repr

/-- True exactly when the call returned a stego buffer (did not raise). -/
def EncodeResult.isOk : EncodeResult → Bool
  | EncodeResult.ok _ => true
  | EncodeResult.attributeError => false

/-- Model of process_steganography: unpack the payload bytes into bits,
build the Smart Header for the selected algorithm (algo_id and p1..p3 as
in STEP 3 of the source), and when the audio cannot hold the 120 header
bits plus the HEADER_OFFSET take the too-short branch — which in the
source raises AttributeError via the undefined self.update_status, see
EncodeResult — otherwise LSB-write the header bits at the start and
dispatch the payload bits to the selected encoder at
start_offset = HEADER_OFFSET.  This is the only abnormal path: no
capacity check is performed here, and in particular no CapacityExceeded
or AudioTooShort error value is ever produced. -/
def process_steganography (pn : ℕ → ℤ) (segT : List ℚ → List ℕ → List ℚ)
    (audio : List ℤ) (data : List ℕ) (sel : AlgoSel) : EncodeResult :=
  let payload_len := data.length
  let bits_to_encode := unpackbits data
  let params : ℕ × ℕ × ℕ × ℕ :=
    match sel with
    | AlgoSel.lsb => (1, 0, 0, 0)
    | AlgoSel.echo c d0 d1 _ => (2, c, d0, d1)
    | AlgoSel.dsss => (4, 8192, 0, 0)
    | AlgoSel.phase => (3, 256, 20, 0)
  let header := create_smart_header params.1 params.2.1 params.2.2.1
    params.2.2.2 payload_len
  let header_bits := unpackbits header
  if audio.length < header_bits.length + HEADER_OFFSET then
    EncodeResult.attributeError
  else
    let audio_copy := lsb_write audio header_bits
    EncodeResult.ok (match sel with
      | AlgoSel.echo c d0 d1 alpha =>
          algo_echo_encode audio_copy bits_to_encode c d0 d1 alpha HEADER_OFFSET
      | AlgoSel.dsss =>
          algo_spread_spectrum_encode pn audio_copy bits_to_encode HEADER_OFFSET 8192
      | AlgoSel.phase =>
          algo_phase_encode segT audio_copy bits_to_encode HEADER_OFFSET
      | AlgoSel.lsb =>
          algo_lsb_encode audio_copy bits_to_encode HEADER_OFFSET)

/-- Constant-one pseudo-noise sequence, a concrete instance of the ±1
guarantee, used to instantiate theorems at concrete inputs. -/
def pnOne : ℕ → ℤ := fun _ => 1

/-- Identity segment transform, a concrete length-preserving instance of
the phase segment rewrite, used to instantiate theorems. -/
def segTId : List ℚ → List ℕ → List ℚ := fun s _ => s

/-! Basic lemmas about the list helpers. -/

theorem applyIdx_length (f : ℕ → α → α) (l : List α) (i0 : ℕ) :
    (applyIdx f l i0).length = l.length := by
  induction l generalizing i0 with
  | nil => rfl
  | cons a t ih => simp [applyIdx, ih]

theorem applyIdx_getD (f : ℕ → α → α) (l : List α) (i0 i : ℕ) (d : α) :
    (applyIdx f l i0).getD i d
      = if i < l.length then f (i0 + i) (l.getD i d) else d := by
  induction l generalizing i0 i with
  | nil => simp [applyIdx]
  | cons a t ih =>
    cases i with
    | zero => simp [applyIdx]
    | succ n =>
      simp only [applyIdx, List.getD_cons_succ, List.length_cons, ih]
      have : i0 + (n + 1) = i0 + 1 + n := by omega
      rw [this]
      by_cases hn : n < t.length
      · rw [if_pos hn, if_pos (by omega)]
      · rw [if_neg hn, if_neg (by omega)]

theorem getD_map_of_lt (f : α → β) (l : List α) (i : ℕ) (d : β) (d' : α)
    (h : i < l.length) : (l.map f).getD i d = f (l.getD i d') := by
  induction l generalizing i with
  | nil => simp at h
  | cons a t ih =>
    cases i with
    | zero => simp
    | succ n =>
      simp only [List.map_cons, List.getD_cons_succ]
      exact ih n (by simpa using h)

theorem lsb_write_nil_bits (audio : List ℤ) : lsb_write audio [] = audio := by
  simp [lsb_write]

theorem lsb_write_cons (x : ℤ) (a : List ℤ) (y : ℕ) (b : List ℕ) :
    lsb_write (x :: a) (y :: b) = set_lsb x y :: lsb_write a b := by
  simp [lsb_write]

theorem lsb_write_length (audio : List ℤ) (bits : List ℕ) :
    (lsb_write audio bits).length = audio.length := by
  simp [lsb_write]
  omega

theorem lsbOf_set_lsb (a : ℤ) (b : ℕ) (hb : b ≤ 1) :
    lsbOf (set_lsb a b) = b := by
  unfold lsbOf set_lsb
  omega

theorem set_lsb_div_two (a : ℤ) (b : ℕ) (hb : b ≤ 1) :
    set_lsb a b / 2 = a / 2 := by
  unfold set_lsb
  omega

theorem set_lsb_range (a : ℤ) (b : ℕ) (ha1 : -32768 ≤ a) (ha2 : a ≤ 32767)
    (hb : b ≤ 1) : -32768 ≤ set_lsb a b ∧ set_lsb a b ≤ 32767 := by
  unfold set_lsb
  omega

theorem lsb_write_read (audio : List ℤ) (bits : List ℕ)
    (h1 : ∀ b ∈ bits, b ≤ 1) (h2 : bits.length ≤ audio.length) :
    ((lsb_write audio bits).map lsbOf).take bits.length = bits := by
  induction bits generalizing audio with
  | nil => simp
  | cons y b ih =>
    cases audio with
    | nil => simp at h2
    | cons x a =>
      rw [lsb_write_cons]
      simp only [List.map_cons, List.length_cons, List.take_succ_cons]
      rw [lsbOf_set_lsb x y (h1 y (by simp))]
      rw [ih a (fun z hz => h1 z (by simp [hz])) (by simpa using h2)]

theorem lsb_write_getD_ge (audio : List ℤ) (bits : List ℕ) (i : ℕ) (d : ℤ)
    (h : bits.length ≤ i) : (lsb_write audio bits).getD i d = audio.getD i d := by
  induction bits generalizing audio i with
  | nil => rw [lsb_write_nil_bits]
  | cons y b ih =>
    cases audio with
    | nil => simp [lsb_write]
    | cons x a =>
      rw [lsb_write_cons]
      cases i with
      | zero => simp at h
      | succ n => simpa using ih a n (by simpa using h)

theorem lsb_write_getD_lt (audio : List ℤ) (bits : List ℕ) (i : ℕ) (d : ℤ)
    (h : i < bits.length) (h2 : i < audio.length) :
    (lsb_write audio bits).getD i d = set_lsb (audio.getD i d) (bits.getD i 0) := by
  induction bits generalizing audio i with
  | nil => simp at h
  | cons y b ih =>
    cases audio with
    | nil => simp at h2
    | cons x a =>
      rw [lsb_write_cons]
      cases i with
      | zero => simp
      | succ n => simpa using ih a n (by simpa using h) (by simpa using h2)

/-! Lemmas about bit packing and the Smart Header bytes. -/

theorem byteToBits_length (b : ℕ) : (byteToBits b).length = 8 := rfl

theorem unpackbits_length (bytes : List ℕ) :
    (unpackbits bytes).length = 8 * bytes.length := by
  induction bytes with
  | nil => rfl
  | cons b t ih =>
    simp only [unpackbits, List.flatMap_cons] at ih ⊢
    simp [byteToBits_length, ih]
    omega

theorem unpackbits_le_one (bytes : List ℕ) :
    ∀ x ∈ unpackbits bytes, x ≤ 1 := by
  induction bytes with
  | nil => simp [unpackbits]
  | cons b t ih =>
    intro x hx
    simp only [unpackbits, List.flatMap_cons, List.mem_append] at hx
    rcases hx with hx | hx
    · simp [byteToBits] at hx
      rcases hx with h | h | h | h | h | h | h | h <;> omega
    · exact ih x hx

theorem packbits_unpackbits (bytes : List ℕ) (h : ∀ x ∈ bytes, x < 256) :
    packbits (unpackbits bytes) = bytes := by
  induction bytes with
  | nil => rfl
  | cons b t ih =>
    have hb : b < 256 := h b (by simp)
    show packbits (byteToBits b ++ unpackbits t) = b :: t
    have hexp : byteToBits b ++ unpackbits t
        = b / 128 % 2 :: b / 64 % 2 :: b / 32 % 2 :: b / 16 % 2
          :: b / 8 % 2 :: b / 4 % 2 :: b / 2 % 2 :: b % 2 :: unpackbits t := rfl
    rw [hexp]
    simp only [packbits]
    rw [ih (fun x hx => h x (by simp [hx]))]
    congr 1
    omega

theorem create_smart_header_length (aid p1 p2 p3 L : ℕ) :
    (create_smart_header aid p1 p2 p3 L).length = 15 := rfl

theorem create_smart_header_lt_256 (aid p1 p2 p3 L : ℕ) :
    ∀ x ∈ create_smart_header aid p1 p2 p3 L, x < 256 := by
  intro x hx
  simp [create_smart_header, header_data] at hx
  rcases hx with h|h|h|h|h|h|h|h|h|h|h|h|h|h|h <;> omega

/-! Parsing a freshly built header succeeds and returns the fields. -/

theorem parse_header_bytes_create (aid p1 p2 p3 L : ℕ)
    (ha : aid < 256) (h1 : p1 < 65536) (h2 : p2 < 65536) (h3 : p3 < 65536)
    (hL : L < 4294967296) :
    parse_header_bytes (create_smart_header aid p1 p2 p3 L)
      = some ⟨aid, p1, p2, p3, L⟩ := by
  have e13 : (create_smart_header aid p1 p2 p3 L).take 13
      = header_data aid p1 p2 p3 L := rfl
  have g0 : (create_smart_header aid p1 p2 p3 L).getD 0 0 = 115 := rfl
  have g1 : (create_smart_header aid p1 p2 p3 L).getD 1 0 = 116 := rfl
  have g2 : (create_smart_header aid p1 p2 p3 L).getD 2 0 = aid % 256 := rfl
  have g3 : (create_smart_header aid p1 p2 p3 L).getD 3 0 = p1 % 256 := rfl
  have g4 : (create_smart_header aid p1 p2 p3 L).getD 4 0 = p1 / 256 % 256 := rfl
  have g5 : (create_smart_header aid p1 p2 p3 L).getD 5 0 = p2 % 256 := rfl
  have g6 : (create_smart_header aid p1 p2 p3 L).getD 6 0 = p2 / 256 % 256 := rfl
  have g7 : (create_smart_header aid p1 p2 p3 L).getD 7 0 = p3 % 256 := rfl
  have g8 : (create_smart_header aid p1 p2 p3 L).getD 8 0 = p3 / 256 % 256 := rfl
  have g9 : (create_smart_header aid p1 p2 p3 L).getD 9 0 = L % 256 := rfl
  have g10 : (create_smart_header aid p1 p2 p3 L).getD 10 0 = L / 256 % 256 := rfl
  have g11 : (create_smart_header aid p1 p2 p3 L).getD 11 0 = L / 65536 % 256 := rfl
  have g12 : (create_smart_header aid p1 p2 p3 L).getD 12 0
      = L / 16777216 % 256 := rfl
  have g13 : (create_smart_header aid p1 p2 p3 L).getD 13 0
      = (header_data aid p1 p2 p3 L).sum % 65536 % 256 := rfl
  have g14 : (create_smart_header aid p1 p2 p3 L).getD 14 0
      = (header_data aid p1 p2 p3 L).sum % 65536 / 256 % 256 := rfl
  unfold parse_header_bytes
  rw [g0, g1, e13, g13, g14, g2, g3, g4, g5, g6, g7, g8, g9, g10, g11, g12]
  rw [if_pos ⟨rfl, rfl⟩]
  rw [if_pos (by omega)]
  simp only [Option.some.injEq, SmartHeader.mk.injEq]
  refine ⟨by omega, by omega, by omega, by omega, by omega⟩

/-- Reading a header that was LSB-written over the first 120 samples of
any sufficiently long audio recovers the original fields. -/
theorem read_write_smart_header (aid p1 p2 p3 L : ℕ) (audio : List ℤ)
    (hlen : 120 ≤ audio.length) (ha : aid < 256) (h1 : p1 < 65536)
    (h2 : p2 < 65536) (h3 : p3 < 65536) (hL : L < 4294967296) :
    read_smart_header
        (lsb_write audio (unpackbits (create_smart_header aid p1 p2 p3 L)))
      = some ⟨aid, p1, p2, p3, L⟩ := by
  have hbl : (unpackbits (create_smart_header aid p1 p2 p3 L)).length = 120 := by
    rw [unpackbits_length, create_smart_header_length]
  unfold read_smart_header
  rw [lsb_write_length, if_neg (by omega)]
  rw [show (120 : ℕ)
      = (unpackbits (create_smart_header aid p1 p2 p3 L)).length from hbl.symm]
  rw [List.map_take]
  rw [lsb_write_read _ _ (unpackbits_le_one _) (by omega)]
  rw [packbits_unpackbits _ (create_smart_header_lt_256 aid p1 p2 p3 L)]
  exact parse_header_bytes_create aid p1 p2 p3 L ha h1 h2 h3 hL

/-! Lemmas about clipping and the int16 cast. -/

theorem trunc16_eq (q : ℚ) : trunc16 q = if q < 0 then ⌈q⌉ else ⌊q⌋ := by
  unfold trunc16
  rw [Rat.floor_def, show (⌈q⌉ : ℤ) = -⌊-q⌋ by rw [Int.floor_neg]; ring,
    Rat.floor_def]
  simp [Rat.neg_num, Rat.neg_den]

theorem trunc16_intCast (n : ℤ) : trunc16 ((n : ℚ)) = n := by
  rw [trunc16_eq]
  split <;> simp

theorem trunc16_range (q : ℚ) (hq1 : -32768 ≤ q) (hq2 : q ≤ 32767) :
    -32768 ≤ trunc16 q ∧ trunc16 q ≤ 32767 := by
  rw [trunc16_eq]
  split
  · rename_i h
    refine ⟨?_, ?_⟩
    · calc (-32768 : ℤ) = ⌈((-32768 : ℤ) : ℚ)⌉ := (Int.ceil_intCast _).symm
        _ ≤ ⌈q⌉ := Int.ceil_le_ceil (by exact_mod_cast hq1)
    · have : ⌈q⌉ ≤ ⌈(0 : ℚ)⌉ := Int.ceil_le_ceil h.le
      simp at this
      omega
  · rename_i h
    push_neg at h
    refine ⟨?_, ?_⟩
    · have : 0 ≤ ⌊q⌋ := Int.floor_nonneg.mpr h
      omega
    · calc ⌊q⌋ ≤ ⌊(32767 : ℚ)⌋ := Int.floor_le_floor hq2
        _ = 32767 := by norm_num

theorem clipQ_range (q : ℚ) : -32768 ≤ clipQ q ∧ clipQ q ≤ 32767 := by
  unfold clipQ
  constructor
  · exact le_max_left _ _
  · exact max_le (by norm_num) (min_le_left _ _)

theorem quantize_range (q : ℚ) : -32768 ≤ quantize q ∧ quantize q ≤ 32767 := by
  unfold quantize
  exact trunc16_range _ (clipQ_range q).1 (clipQ_range q).2

theorem quantize_intCast (n : ℤ) (hn1 : -32768 ≤ n) (hn2 : n ≤ 32767) :
    quantize ((n : ℚ)) = n := by
  unfold quantize
  rw [show clipQ ((n : ℚ)) = ((n : ℚ)) by
    unfold clipQ
    rw [min_eq_right (by exact_mod_cast hn2), max_eq_right (by exact_mod_cast hn1)]]
  exact trunc16_intCast n

theorem clip16_range (z : ℤ) : -32768 ≤ clip16 z ∧ clip16 z ≤ 32767 := by
  unfold clip16
  omega

theorem clip16_eq_self (z : ℤ) (h1 : -32768 ≤ z) (h2 : z ≤ 32767) :
    clip16 z = z := by
  unfold clip16
  omega

/-! Region lemmas for the three body-encoder loops: they preserve buffer
length and never touch a sample before the start offset. -/

theorem getD_take_lt (l : List α) (n i : ℕ) (d : α) (h : i < n) :
    (l.take n).getD i d = l.getD i d := by
  induction l generalizing n i with
  | nil => simp
  | cons a t ih =>
    cases n with
    | zero => omega
    | succ m =>
      cases i with
      | zero => simp
      | succ j => simpa using ih m j (by omega)

theorem echo_loop_length (audio : List ℤ) (alpha : ℚ) (cs d0 d1 start : ℕ)
    (bits : List ℕ) (idx : ℕ) (out : List ℚ) :
    (echo_loop audio alpha cs d0 d1 start bits idx out).length = out.length := by
  induction bits generalizing idx out with
  | nil => rfl
  | cons b t ih =>
    simp only [echo_loop]
    split
    · rw [ih, applyIdx_length]
    · rfl

theorem echo_loop_getD_before (audio : List ℤ) (alpha : ℚ)
    (cs d0 d1 start : ℕ) (bits : List ℕ) (idx : ℕ) (out : List ℚ)
    (i : ℕ) (d : ℚ) (h : i < start) :
    (echo_loop audio alpha cs d0 d1 start bits idx out).getD i d
      = out.getD i d := by
  induction bits generalizing idx out with
  | nil => rfl
  | cons b t ih =>
    simp only [echo_loop]
    split
    · rw [ih]
      rw [applyIdx_getD]
      split
      · rw [if_neg (by omega)]
      · rename_i hlen
        rw [List.getD_eq_default _ _ (by omega)]
    · rfl

theorem sse_loop_length (pn : ℕ → ℤ) (L start f : ℕ) (bits : List ℕ)
    (idx : ℕ) (out : List ℤ) :
    (sse_loop pn L start f bits idx out).length = out.length := by
  induction bits generalizing idx out with
  | nil => rfl
  | cons b t ih =>
    simp only [sse_loop]
    split
    · rw [ih, applyIdx_length]
    · rfl

theorem sse_loop_getD_before (pn : ℕ → ℤ) (L start f : ℕ) (bits : List ℕ)
    (idx : ℕ) (out : List ℤ) (i : ℕ) (d : ℤ) (h : i < start) :
    (sse_loop pn L start f bits idx out).getD i d = out.getD i d := by
  induction bits generalizing idx out with
  | nil => rfl
  | cons b t ih =>
    simp only [sse_loop]
    split
    · rw [ih]
      rw [applyIdx_getD]
      split
      · rw [if_neg (by omega)]
      · rw [List.getD_eq_default _ _ (by omega)]
    · rfl

theorem phase_loop_length (segT : List ℚ → List ℕ → List ℚ)
    (output : List ℚ) (bits : List ℕ) (pos : ℕ) :
    (phase_loop segT output bits pos).length = output.length := by
  match bits with
  | [] => rw [phase_loop]
  | b :: t =>
    rw [phase_loop]
    split
    · rw [phase_loop_length segT _ ((b :: t).drop 8) (pos + 256), applyIdx_length]
    · rfl
termination_by bits.length
decreasing_by simp; omega

theorem phase_loop_getD_before (segT : List ℚ → List ℕ → List ℚ)
    (output : List ℚ) (bits : List ℕ) (pos i : ℕ) (d : ℚ) (h : i < pos) :
    (phase_loop segT output bits pos).getD i d = output.getD i d := by
  match bits with
  | [] => rw [phase_loop]
  | b :: t =>
    rw [phase_loop]
    split
    · rw [phase_loop_getD_before segT _ ((b :: t).drop 8) (pos + 256) i d (by omega)]
      rw [applyIdx_getD]
      split
      · rw [if_neg (by omega)]
      · rw [List.getD_eq_default _ _ (by omega)]
    · rfl
termination_by bits.length
decreasing_by simp; omega

theorem getD_mem_of_lt (l : List α) (i : ℕ) (d : α) (h : i < l.length) :
    l.getD i d ∈ l := by
  induction l generalizing i with
  | nil => simp at h
  | cons a t ih =>
    cases i with
    | zero => simp
    | succ n =>
      rw [List.getD_cons_succ]
      exact List.mem_cons_of_mem a (ih n (by simpa using h))

/-! Encoder-level length and start-offset preservation. -/

theorem algo_lsb_encode_length (audio : List ℤ) (bits : List ℕ) (k : ℕ) :
    (algo_lsb_encode audio bits k).length = audio.length := by
  simp only [algo_lsb_encode, List.length_append, List.length_take,
    lsb_write_length, List.length_drop]
  omega

theorem algo_lsb_encode_getD_before (audio : List ℤ) (bits : List ℕ)
    (k i : ℕ) (d : ℤ) (h : i < k) (h2 : i < audio.length) :
    (algo_lsb_encode audio bits k).getD i d = audio.getD i d := by
  simp only [algo_lsb_encode]
  rw [List.getD_append _ _ _ _ (by simp; omega), getD_take_lt _ _ _ _ h]

theorem algo_echo_encode_length (audio : List ℤ) (bits : List ℕ)
    (c d0 d1 : ℕ) (alpha : ℚ) (s : ℕ) :
    (algo_echo_encode audio bits c d0 d1 alpha s).length = audio.length := by
  unfold algo_echo_encode
  split
  · split
    · rfl
    · rw [List.length_map, echo_loop_length, List.length_map]
  · rw [List.length_map, echo_loop_length, List.length_map]

theorem algo_echo_encode_getD_before (audio : List ℤ) (bits : List ℕ)
    (c d0 d1 : ℕ) (alpha : ℚ) (s i : ℕ)
    (hr : ∀ x ∈ audio, -32768 ≤ x ∧ x ≤ 32767)
    (h : i < s) (h2 : i < audio.length) :
    (algo_echo_encode audio bits c d0 d1 alpha s).getD i 0 = audio.getD i 0 := by
  have key : ∀ bs : List ℕ,
      ((echo_loop audio alpha c d0 d1 s bs 0
        (audio.map toQ)).map quantize).getD i 0 = audio.getD i 0 := by
    intro bs
    rw [getD_map_of_lt quantize _ i 0 0
      (by rw [echo_loop_length, List.length_map]; exact h2)]
    rw [echo_loop_getD_before audio alpha c d0 d1 s bs 0
      (audio.map toQ) i 0 h]
    rw [getD_map_of_lt toQ audio i 0 0 h2]
    have := hr (audio.getD i 0) (getD_mem_of_lt audio i 0 h2)
    exact quantize_intCast _ this.1 this.2
  unfold algo_echo_encode
  split
  · split
    · rfl
    · exact key _
  · exact key _

theorem algo_phase_encode_length (segT : List ℚ → List ℕ → List ℚ)
    (audio : List ℤ) (bits : List ℕ) (s : ℕ) :
    (algo_phase_encode segT audio bits s).length = audio.length := by
  unfold algo_phase_encode
  rw [List.length_map, phase_loop_length, List.length_map]

theorem algo_phase_encode_getD_before (segT : List ℚ → List ℕ → List ℚ)
    (audio : List ℤ) (bits : List ℕ) (s i : ℕ)
    (hr : ∀ x ∈ audio, -32768 ≤ x ∧ x ≤ 32767)
    (h : i < s) (h2 : i < audio.length) :
    (algo_phase_encode segT audio bits s).getD i 0 = audio.getD i 0 := by
  unfold algo_phase_encode
  rw [getD_map_of_lt quantize _ i 0 0
    (by rw [phase_loop_length, List.length_map]; exact h2)]
  rw [phase_loop_getD_before segT (audio.map toQ) bits s i 0 h]
  rw [getD_map_of_lt toQ audio i 0 0 h2]
  have := hr (audio.getD i 0) (getD_mem_of_lt audio i 0 h2)
  exact quantize_intCast _ this.1 this.2

theorem algo_spread_spectrum_encode_length (pn : ℕ → ℤ) (audio : List ℤ)
    (bits : List ℕ) (s f : ℕ) :
    (algo_spread_spectrum_encode pn audio bits s f).length = audio.length := by
  unfold algo_spread_spectrum_encode
  split
  · split
    · rfl
    · rw [List.length_map, sse_loop_length]
  · rw [List.length_map, sse_loop_length]

theorem algo_spread_spectrum_encode_getD_before (pn : ℕ → ℤ)
    (audio : List ℤ) (bits : List ℕ) (s f i : ℕ)
    (hr : ∀ x ∈ audio, -32768 ≤ x ∧ x ≤ 32767)
    (h : i < s) (h2 : i < audio.length) :
    (algo_spread_spectrum_encode pn audio bits s f).getD i 0
      = audio.getD i 0 := by
  have key : ∀ bs : List ℕ,
      ((sse_loop pn audio.length s f bs 0 audio).map clip16).getD i 0
        = audio.getD i 0 := by
    intro bs
    rw [getD_map_of_lt clip16 _ i 0 0 (by rw [sse_loop_length]; exact h2)]
    rw [sse_loop_getD_before pn audio.length s f bs 0 audio i 0 h]
    have := hr (audio.getD i 0) (getD_mem_of_lt audio i 0 h2)
    exact clip16_eq_self _ this.1 this.2
  unfold algo_spread_spectrum_encode
  split
  · split
    · rfl
    · exact key _
  · exact key _

theorem drop_append_of_take (l : List α) (k : ℕ) (X : List α)
    (h : k ≤ l.length) : (l.take k ++ X).drop k = X := by
  have hl : (l.take k).length = k := by simp [h]
  calc (l.take k ++ X).drop k
      = (l.take k ++ X).drop (l.take k).length := by rw [hl]
    _ = X := List.drop_left _ _

theorem lsb_write_mem_range (audio : List ℤ) (bits : List ℕ)
    (hr : ∀ x ∈ audio, -32768 ≤ x ∧ x ≤ 32767) (hb : ∀ b ∈ bits, b ≤ 1) :
    ∀ x ∈ lsb_write audio bits, -32768 ≤ x ∧ x ≤ 32767 := by
  induction audio generalizing bits with
  | nil =>
    intro x hx
    simp [lsb_write] at hx
  | cons a t ih =>
    cases bits with
    | nil =>
      rw [lsb_write_nil_bits]
      exact hr
    | cons y b =>
      rw [lsb_write_cons]
      intro x hx
      rcases List.mem_cons.mp hx with hx | hx
      · subst hx
        have ha := hr a (by simp)
        exact set_lsb_range a y ha.1 ha.2 (hb y (by simp))
      · exact ih b (fun z hz => hr z (by simp [hz]))
          (fun z hz => hb z (by simp [hz])) x hx

theorem header_bits_length (aid p1 p2 p3 L : ℕ) :
    (unpackbits (create_smart_header aid p1 p2 p3 L)).length = 120 := by
  rw [unpackbits_length, create_smart_header_length]

/-! Claim theorems. -/

/-- C1. Smart Header round-trip: for every valid header tuple (algo_id an
8-bit value, p1, p2, p3 16-bit unsigned values, payload_len a 32-bit
unsigned value), parsing the buffer produced by building the header from
that tuple succeeds and returns exactly the same tuple: read_smart_header
applied to audio whose first 120 LSBs carry
create_smart_header(algo_id, p1, p2, p3, payload_len) yields the original
fields. -/
theorem c1_smart_header_roundtrip (algo_id p1 p2 p3 payload_len : ℕ)
    (audio : List ℤ) (hlen : 120 ≤ audio.length)
    (ha : algo_id < 256) (h1 : p1 < 65536) (h2 : p2 < 65536) (h3 : p3 < 65536)
    (hL : payload_len < 4294967296) :
    read_smart_header
        (lsb_write audio
          (unpackbits (create_smart_header algo_id p1 p2 p3 payload_len)))
      = some ⟨algo_id, p1, p2, p3, payload_len⟩ :=
  read_write_smart_header algo_id p1 p2 p3 payload_len audio hlen ha h1 h2 h3 hL

/-- Witness for C1 at a concrete Echo-style header on a concrete
120-sample carrier. -/
theorem c1_smart_header_roundtrip_witness :
    read_smart_header
        (lsb_write (List.replicate 120 (-5 : ℤ))
          (unpackbits (create_smart_header 2 2048 50 200 32)))
      = some ⟨2, 2048, 50, 200, 32⟩ :=
  c1_smart_header_roundtrip 2 2048 50 200 32 (List.replicate 120 (-5 : ℤ))
    (by simp) (by norm_num) (by norm_num) (by norm_num) (by norm_num)
    (by norm_num)

/-- C2. LSB codec round-trip: for every sample buffer, every start index
k ≤ len(samples), and every bit array with values in {0,1} (truncated, if
needed, to len(samples) - k), decoding the encoded buffer from index k
agrees bit-for-bit with the (truncated) bits on its first len(bits)
positions. -/
theorem c2_lsb_roundtrip (samples : List ℤ) (bits : List ℕ) (k : ℕ)
    (hb : ∀ b ∈ bits, b ≤ 1) (hk : k ≤ samples.length) :
    (algo_lsb_decode (algo_lsb_encode samples bits k) k).take
        (bits.take (samples.length - k)).length
      = bits.take (samples.length - k) := by
  have htb_le : (bits.take (samples.length - k)).length ≤ samples.length - k := by
    simp
  have henc : algo_lsb_encode samples bits k
      = samples.take k
        ++ lsb_write (samples.drop k) (bits.take (samples.length - k)) := by
    simp only [algo_lsb_encode]
    by_cases hc : samples.length - k < bits.length
    · rw [if_pos hc]
    · rw [if_neg hc]
      congr 1
      rw [List.take_of_length_le (by omega)]
  rw [henc]
  unfold algo_lsb_decode
  rw [drop_append_of_take _ _ _ hk]
  rw [lsb_write_read _ _
    (fun b hb' => hb b (List.mem_of_mem_take hb'))
    (by simp)]

/-- Witness for C2 at a concrete 3-sample buffer, k = 1 and 3 bits (which
are clipped to 2). -/
theorem c2_lsb_roundtrip_witness :
    (algo_lsb_decode (algo_lsb_encode [0, 1, 2] [1, 0, 1] 1) 1).take
        (([1, 0, 1].take (([0, 1, 2] : List ℤ).length - 1)).length)
      = [1, 0, 1].take (([0, 1, 2] : List ℤ).length - 1) :=
  c2_lsb_roundtrip [0, 1, 2] [1, 0, 1] 1 (by decide) (by decide)

/-- C4. Smart Header wire format: for every valid input tuple,
create_smart_header returns exactly 15 bytes whose first 13 bytes are the
little-endian packing of ('st', algo_id, p1, p2, p3, payload_len) and
whose final 2 bytes are the little-endian 16-bit value equal to (sum of
the first 13 bytes) mod 2^16. -/
theorem c4_header_wire_format (algo_id p1 p2 p3 payload_len : ℕ)
    (ha : algo_id < 256) (h1 : p1 < 65536) (h2 : p2 < 65536)
    (h3 : p3 < 65536) (hL : payload_len < 4294967296) :
    (create_smart_header algo_id p1 p2 p3 payload_len).length = 15 ∧
    (create_smart_header algo_id p1 p2 p3 payload_len).take 13
      = [115, 116, algo_id, p1 % 256, p1 / 256, p2 % 256, p2 / 256,
         p3 % 256, p3 / 256, payload_len % 256, payload_len / 256 % 256,
         payload_len / 65536 % 256, payload_len / 16777216] ∧
    (create_smart_header algo_id p1 p2 p3 payload_len).drop 13
      = [((create_smart_header algo_id p1 p2 p3 payload_len).take 13).sum
           % 65536 % 256,
         ((create_smart_header algo_id p1 p2 p3 payload_len).take 13).sum
           % 65536 / 256] := by
  refine ⟨rfl, ?_, ?_⟩
  · rw [show (create_smart_header algo_id p1 p2 p3 payload_len).take 13
        = header_data algo_id p1 p2 p3 payload_len from rfl]
    simp only [header_data, List.cons.injEq, true_and, and_true]
    omega
  · rw [show (create_smart_header algo_id p1 p2 p3 payload_len).take 13
        = header_data algo_id p1 p2 p3 payload_len from rfl]
    rw [show (create_smart_header algo_id p1 p2 p3 payload_len).drop 13
        = [(header_data algo_id p1 p2 p3 payload_len).sum % 65536 % 256,
           (header_data algo_id p1 p2 p3 payload_len).sum % 65536 / 256 % 256]
        from rfl]
    simp only [List.cons.injEq, true_and, and_true]
    omega

/-- Witness for C4 at the concrete LSB header (1, 0, 0, 0, 13). -/
theorem c4_header_wire_format_witness :
    (create_smart_header 1 0 0 0 13).length = 15 ∧
    (create_smart_header 1 0 0 0 13).take 13
      = [115, 116, 1, 0 % 256, 0 / 256, 0 % 256, 0 / 256,
         0 % 256, 0 / 256, 13 % 256, 13 / 256 % 256,
         13 / 65536 % 256, 13 / 16777216] ∧
    (create_smart_header 1 0 0 0 13).drop 13
      = [((create_smart_header 1 0 0 0 13).take 13).sum % 65536 % 256,
         ((create_smart_header 1 0 0 0 13).take 13).sum % 65536 / 256] :=
  c4_header_wire_format 1 0 0 0 13 (by norm_num) (by norm_num) (by norm_num)
    (by norm_num) (by norm_num)

/-- C5. Header parse rejection: for every carrier of at least 120 samples
whose embedded 15 header bytes have a first byte pair other than the
magic 'st' (0x73 0x74 = 115, 116) or a trailing 2-byte value different
from (sum of the first 13 bytes) mod 2^16, read_smart_header returns None
(a parse failure) rather than a header; being a total function, the
parser cannot throw on any such input. -/
theorem c5_header_parse_rejection (audio : List ℤ) (hlen : 120 ≤ audio.length)
    (hbad : (packbits ((audio.take 120).map lsbOf)).getD 0 0 ≠ 115
      ∨ (packbits ((audio.take 120).map lsbOf)).getD 1 0 ≠ 116
      ∨ ((packbits ((audio.take 120).map lsbOf)).take 13).sum % 65536
          ≠ (packbits ((audio.take 120).map lsbOf)).getD 13 0
            + 256 * (packbits ((audio.take 120).map lsbOf)).getD 14 0) :
    read_smart_header audio = none := by
  unfold read_smart_header
  rw [if_neg (by omega)]
  unfold parse_header_bytes
  rcases hbad with h | h | h
  · rw [if_neg (by tauto)]
  · rw [if_neg (by tauto)]
  · by_cases hm : (packbits ((audio.take 120).map lsbOf)).getD 0 0 = 115
        ∧ (packbits ((audio.take 120).map lsbOf)).getD 1 0 = 116
    · rw [if_pos hm, if_neg h]
    · rw [if_neg hm]

/-- Witness for C5 on the 120-sample all-sevens carrier, whose decoded
header bytes are all 255 and fail the magic check. -/
theorem c5_header_parse_rejection_witness :
    read_smart_header (List.replicate 120 (7 : ℤ)) = none :=
  c5_header_parse_rejection (List.replicate 120 (7 : ℤ)) (by simp) (by decide)

/-- C6. Capacity formulas: for every sample buffer of length N, the
capacity calculator computes bytes_available equal to (N / 8) − 4 for
LSB, ((N / chunk_size) / 8) − 4 for Echo with the configured chunk_size,
(N / 256) − 4 for Phase, and ((N / 8192) / 8) − 4 for DSSS (integer
division), clamped at zero; get_max_kb returns that value in kilobytes,
i.e. divided by 1024. -/
theorem c6_capacity_formulas (N c d0 d1 : ℕ) (alpha : ℚ) (_hc : 0 < c) :
    get_max_kb N AlgoSel.lsb * 1024 = max 0 (((N / 8 : ℕ) : ℚ) - 4) ∧
    get_max_kb N (AlgoSel.echo c d0 d1 alpha) * 1024
      = max 0 (((N / c / 8 : ℕ) : ℚ) - 4) ∧
    get_max_kb N AlgoSel.phase * 1024 = max 0 (((N / 256 : ℕ) : ℚ) - 4) ∧
    get_max_kb N AlgoSel.dsss * 1024
      = max 0 (((N / 8192 / 8 : ℕ) : ℚ) - 4) := by
  have key : ∀ q : ℚ, max 0 (q / 1024) * 1024 = max 0 q := by
    intro q
    rw [max_mul_of_nonneg _ _ (by norm_num : (0:ℚ) ≤ 1024)]
    rw [div_mul_cancel₀ _ (by norm_num : (1024:ℚ) ≠ 0)]
    norm_num
  refine ⟨?_, ?_, ?_, ?_⟩ <;>
    · unfold get_max_kb bytes_avail
      rw [key]
      congr 1
      norm_cast

/-- Witness for C6 at N = 10000 samples with chunk_size 2048. -/
theorem c6_capacity_formulas_witness :
    get_max_kb 10000 AlgoSel.lsb * 1024 = max 0 (((10000 / 8 : ℕ) : ℚ) - 4) ∧
    get_max_kb 10000 (AlgoSel.echo 2048 50 200 (1/2)) * 1024
      = max 0 (((10000 / 2048 / 8 : ℕ) : ℚ) - 4) ∧
    get_max_kb 10000 AlgoSel.phase * 1024
      = max 0 (((10000 / 256 : ℕ) : ℚ) - 4) ∧
    get_max_kb 10000 AlgoSel.dsss * 1024
      = max 0 (((10000 / 8192 / 8 : ℕ) : ℚ) - 4) :=
  c6_capacity_formulas 10000 2048 50 200 (1/2) (by norm_num)

/-- Frame effect of header write plus body encoding, for a body encoder
that never touches indices below 1000. -/
theorem body_frame_invariant (audio : List ℤ) (hbits : List ℕ)
    (enc : List ℤ → List ℤ)
    (hlen : 1120 ≤ audio.length) (hbl : hbits.length = 120)
    (hb1 : ∀ b ∈ hbits, b ≤ 1)
    (henc_getD : ∀ i, i < 1000 → i < (lsb_write audio hbits).length →
        (enc (lsb_write audio hbits)).getD i 0
          = (lsb_write audio hbits).getD i 0) :
    (∀ i, i < 120 →
        (enc (lsb_write audio hbits)).getD i 0 / 2 = audio.getD i 0 / 2) ∧
    (∀ i, 120 ≤ i → i < 1000 →
        (enc (lsb_write audio hbits)).getD i 0 = audio.getD i 0) := by
  have hacl : (lsb_write audio hbits).length = audio.length :=
    lsb_write_length audio hbits
  constructor
  · intro i hi
    rw [henc_getD i (by omega) (by omega)]
    rw [lsb_write_getD_lt audio hbits i 0 (by omega) (by omega)]
    exact set_lsb_div_two _ _ (hb1 _ (getD_mem_of_lt hbits i 0 (by omega)))
  · intro i hi1 hi2
    rw [henc_getD i (by omega) (by omega)]
    exact lsb_write_getD_ge audio hbits i 0 (by omega)

/-- C3. Encode layout/frame invariant: for every encode call with any of
the four algorithms (on an int16 carrier long enough to encode at all),
only bit 0 of samples [0, 120) is changed by the header write — all
higher bits of those samples, i.e. their floor division by 2, are
unchanged — samples [120, 1000) are left completely untouched, and the
body encoding modifies no sample with index below HEADER_OFFSET = 1000. -/
theorem c3_encode_frame_invariant (pn : ℕ → ℤ)
    (segT : List ℚ → List ℕ → List ℚ) (audio : List ℤ) (data : List ℕ)
    (sel : AlgoSel) (hr : ∀ x ∈ audio, -32768 ≤ x ∧ x ≤ 32767)
    (hlen : 1120 ≤ audio.length) :
    ∃ stego, process_steganography pn segT audio data sel
        = EncodeResult.ok stego ∧
      (∀ i, i < 120 → stego.getD i 0 / 2 = audio.getD i 0 / 2) ∧
      (∀ i, 120 ≤ i → i < 1000 → stego.getD i 0 = audio.getD i 0) := by
  cases sel with
  | lsb =>
    simp only [process_steganography, HEADER_OFFSET]
    rw [header_bits_length, if_neg (by omega)]
    refine ⟨_, rfl, ?_⟩
    exact body_frame_invariant audio _
      (fun a => algo_lsb_encode a (unpackbits data) 1000) hlen
      (header_bits_length _ _ _ _ _) (unpackbits_le_one _)
      (fun i h1 h2 => algo_lsb_encode_getD_before _ _ _ i 0 h1 h2)
  | echo c d0 d1 alpha =>
    simp only [process_steganography, HEADER_OFFSET]
    rw [header_bits_length, if_neg (by omega)]
    refine ⟨_, rfl, ?_⟩
    exact body_frame_invariant audio _
      (fun a => algo_echo_encode a (unpackbits data) c d0 d1 alpha 1000) hlen
      (header_bits_length _ _ _ _ _) (unpackbits_le_one _)
      (fun i h1 h2 => algo_echo_encode_getD_before _ _ _ _ _ _ _ i
        (lsb_write_mem_range audio _ hr (unpackbits_le_one _)) h1 h2)
  | phase =>
    simp only [process_steganography, HEADER_OFFSET]
    rw [header_bits_length, if_neg (by omega)]
    refine ⟨_, rfl, ?_⟩
    exact body_frame_invariant audio _
      (fun a => algo_phase_encode segT a (unpackbits data) 1000) hlen
      (header_bits_length _ _ _ _ _) (unpackbits_le_one _)
      (fun i h1 h2 => algo_phase_encode_getD_before segT _ _ _ i
        (lsb_write_mem_range audio _ hr (unpackbits_le_one _)) h1 h2)
  | dsss =>
    simp only [process_steganography, HEADER_OFFSET]
    rw [header_bits_length, if_neg (by omega)]
    refine ⟨_, rfl, ?_⟩
    exact body_frame_invariant audio _
      (fun a => algo_spread_spectrum_encode pn a (unpackbits data) 1000 8192)
      hlen (header_bits_length _ _ _ _ _) (unpackbits_le_one _)
      (fun i h1 h2 => algo_spread_spectrum_encode_getD_before pn _ _ _ _ i
        (lsb_write_mem_range audio _ hr (unpackbits_le_one _)) h1 h2)

/-- Witness for C3: LSB encode on a 1120-sample zero carrier with a
one-byte payload. -/
theorem c3_encode_frame_invariant_witness :
    ∃ stego, process_steganography pnOne segTId (List.replicate 1120 (0 : ℤ))
        [77] AlgoSel.lsb = EncodeResult.ok stego ∧
      (∀ i, i < 120 →
        stego.getD i 0 / 2 = (List.replicate 1120 (0 : ℤ)).getD i 0 / 2) ∧
      (∀ i, 120 ≤ i → i < 1000 →
        stego.getD i 0 = (List.replicate 1120 (0 : ℤ)).getD i 0) :=
  c3_encode_frame_invariant pnOne segTId (List.replicate 1120 (0 : ℤ)) [77]
    AlgoSel.lsb (by intro x hx; rw [List.eq_of_mem_replicate hx]; omega)
    (by simp)

/-- C7 (amended). The orchestrator process_steganography performs no
capacity check and never reports a CapacityExceeded error: whenever the
carrier holds the header plus offset (length ≥ 1120) it embeds, silently
truncating the payload bits in the codec.  Over-capacity payloads are
instead rejected before encoding by the GUI capacity gate
update_capacity_check, which disables encoding whenever
payload_kb + 32/1024 KB exceeds get_max_kb; in particular any payload
above bytes_avail capacity (e.g. one byte above) is rejected there. -/
theorem c7_capacity_rejection_amended (data : List ℕ) (N : ℕ) (sel : AlgoSel)
    (hcap : bytes_avail N sel < (data.length : ℤ)) :
    update_capacity_check_rejects data.length N sel ∧
    ∀ (pn : ℕ → ℤ) (segT : List ℚ → List ℕ → List ℚ) (audio : List ℤ),
      1120 ≤ audio.length →
      (process_steganography pn segT audio data sel).isOk = true := by
  constructor
  · unfold update_capacity_check_rejects get_max_kb
    have hd : (bytes_avail N sel : ℚ) + 1 ≤ (data.length : ℚ) := by
      exact_mod_cast hcap
    have h1024 : (0 : ℚ) < 1024 := by norm_num
    rw [max_lt_iff]
    constructor
    · positivity
    · rw [div_add_div_same, div_lt_div_iff_of_pos_right h1024]
      have : (0 : ℚ) ≤ (data.length : ℚ) := Nat.cast_nonneg _
      linarith
  · intro pn segT audio hlen
    cases sel <;>
      (simp only [process_steganography, HEADER_OFFSET]
       rw [header_bits_length, if_neg (by omega)]
       rfl)

/-- Witness for C7's amended claim: a 137-byte payload on a 1120-sample
carrier (LSB capacity 136 bytes). -/
theorem c7_capacity_rejection_amended_witness :
    update_capacity_check_rejects (List.replicate 137 (0 : ℕ)).length 1120
        AlgoSel.lsb ∧
    ∀ (pn : ℕ → ℤ) (segT : List ℚ → List ℕ → List ℚ) (audio : List ℤ),
      1120 ≤ audio.length →
      (process_steganography pn segT audio (List.replicate 137 (0 : ℕ))
        AlgoSel.lsb).isOk = true :=
  c7_capacity_rejection_amended (List.replicate 137 (0 : ℕ)) 1120 AlgoSel.lsb
    (by decide)

/-- Counterexample for C7 as stated: a payload one byte above LSB capacity
(137 bytes on a 1120-sample carrier, capacity (1120/8) − 4 = 136) is not
rejected by the encode operation — process_steganography embeds (returns a
stego buffer; its only abnormal exit is the AttributeError of the
too-short branch, never a capacity error), the codec truncating the
bits. -/
theorem c7_capacity_rejection_counterexample :
    bytes_avail 1120 AlgoSel.lsb < (137 : ℤ) ∧
    (process_steganography pnOne segTId (List.replicate 1120 (0 : ℤ))
        (List.replicate 137 (0 : ℕ)) AlgoSel.lsb).isOk = true := by
  constructor
  · decide
  · decide

/-- C8 (amended). For a carrier of exactly N = 120 samples, encode does
not report AudioTooShort: for every payload and algorithm,
process_steganography takes the too-short branch, which calls the
undefined self.update_status and so raises AttributeError — the encode
crashes with an unrelated exception instead of reporting an error value.
Decode performs no AudioTooShort check either: read_smart_header's only
length guard is len < 120, which does not trigger at N = 120, so the
header parse is attempted — a 120-sample carrier carrying a valid header
parses successfully. -/
theorem c8_audio_too_short_amended (audio : List ℤ)
    (h : audio.length = 120) :
    (∀ (pn : ℕ → ℤ) (segT : List ℚ → List ℕ → List ℚ) (data : List ℕ)
        (sel : AlgoSel), process_steganography pn segT audio data sel
          = EncodeResult.attributeError) ∧
    read_smart_header
        (lsb_write audio (unpackbits (create_smart_header 1 0 0 0 13)))
      = some ⟨1, 0, 0, 0, 13⟩ := by
  constructor
  · intro pn segT data sel
    cases sel <;>
      (simp only [process_steganography, HEADER_OFFSET]
       rw [header_bits_length, if_pos (by omega)])
  · exact read_write_smart_header 1 0 0 0 13 audio (by omega) (by norm_num)
      (by norm_num) (by norm_num) (by norm_num) (by norm_num)

/-- Witness for C8's amended claim on the all-zero 120-sample carrier. -/
theorem c8_audio_too_short_amended_witness :
    (∀ (pn : ℕ → ℤ) (segT : List ℚ → List ℕ → List ℚ) (data : List ℕ)
        (sel : AlgoSel),
      process_steganography pn segT (List.replicate 120 (0 : ℤ)) data sel
        = EncodeResult.attributeError) ∧
    read_smart_header
        (lsb_write (List.replicate 120 (0 : ℤ))
          (unpackbits (create_smart_header 1 0 0 0 13)))
      = some ⟨1, 0, 0, 0, 13⟩ :=
  c8_audio_too_short_amended (List.replicate 120 (0 : ℤ)) (by simp)

/-- Counterexample for C8 as stated: decode does not report AudioTooShort
before attempting the header parse at N = 120 — on this concrete
120-sample carrier the parse is attempted and succeeds, returning a
header. -/
theorem c8_audio_too_short_counterexample :
    read_smart_header
        (lsb_write (List.replicate 120 (3 : ℤ))
          (unpackbits (create_smart_header 1 0 0 0 13)))
      = some ⟨1, 0, 0, 0, 13⟩ := by
  decide

/-! Sum lemmas over List.range used for the DSSS correlation. -/

theorem sum_map_range_congr (f g : ℕ → ℤ) (n : ℕ)
    (h : ∀ k, k < n → f k = g k) :
    ((List.range n).map f).sum = ((List.range n).map g).sum := by
  induction n with
  | zero => rfl
  | succ m ih =>
    rw [List.range_succ, List.map_append, List.map_append,
      List.sum_append, List.sum_append]
    rw [ih (fun k hk => h k (by omega))]
    simp [h m (by omega)]

theorem sum_map_range_add (f g : ℕ → ℤ) (n : ℕ) :
    ((List.range n).map (fun k => f k + g k)).sum
      = ((List.range n).map f).sum + ((List.range n).map g).sum := by
  induction n with
  | zero => rfl
  | succ m ih =>
    rw [List.range_succ]
    simp only [List.map_append, List.sum_append, ih]
    simp
    ring

theorem sum_map_range_const (c : ℤ) (n : ℕ) :
    ((List.range n).map (fun _ => c)).sum = n * c := by
  induction n with
  | zero => simp
  | succ m ih =>
    rw [List.range_succ]
    simp only [List.map_append, List.sum_append, ih]
    simp
    ring

/-! Frame lemmas for the DSSS encoder loop. -/

theorem sse_loop_getD_lt_frames (pn : ℕ → ℤ) (L start f : ℕ) (bits : List ℕ)
    (idx : ℕ) (out : List ℤ) (i : ℕ) (d : ℤ) (h : i < start + idx * f) :
    (sse_loop pn L start f bits idx out).getD i d = out.getD i d := by
  induction bits generalizing idx out with
  | nil => rfl
  | cons b rest ih =>
    simp only [sse_loop]
    split
    · have hstep : (idx + 1) * f = idx * f + f := by ring
      rw [ih (idx + 1) _ (by omega)]
      rw [applyIdx_getD]
      split
      · rw [if_neg (by omega)]
      · rw [List.getD_eq_default _ _ (by omega)]
    · rfl

theorem sse_loop_getD_frame (pn : ℕ → ℤ) (L start f : ℕ) (bits : List ℕ)
    (idx : ℕ) (out : List ℤ) (j k : ℕ)
    (hj : j < bits.length) (hk : k < f) (hout : out.length = L)
    (hall : start + (idx + bits.length) * f ≤ L) :
    (sse_loop pn L start f bits idx out).getD (start + (idx + j) * f + k) 0
      = out.getD (start + (idx + j) * f + k) 0
        + (if bits.getD j 0 = 1 then 500 else -500) * pn k := by
  induction bits generalizing idx out j with
  | nil => simp at hj
  | cons b rest ih =>
    simp only [sse_loop]
    have hgrow : (idx + (b :: rest).length) * f
        = idx * f + f + rest.length * f := by
      simp [List.length_cons]
      ring
    rw [hgrow] at hall
    rw [if_pos (by omega)]
    cases j with
    | zero =>
      have e0 : (idx + 0) * f = idx * f := by ring
      have e1 : (idx + 1) * f = idx * f + f := by ring
      rw [sse_loop_getD_lt_frames pn L start f rest (idx + 1) _ _ 0 (by omega)]
      rw [applyIdx_getD]
      rw [if_pos (by omega)]
      simp only [List.getD_cons_zero]
      rw [if_pos (by constructor <;> omega)]
      have eidx : 0 + (start + (idx + 0) * f + k) - (start + idx * f) = k := by
        omega
      rw [eidx]
    | succ jj =>
      have e2 : start + (idx + (jj + 1)) * f + k
          = start + ((idx + 1) + jj) * f + k := by ring
      have e3 : (idx + 1 + rest.length) * f = idx * f + f + rest.length * f := by
        ring
      rw [e2]
      rw [ih (idx + 1) (applyIdx _ out 0) jj (by simpa using hj)
        (by rw [applyIdx_length]; exact hout) (by omega)]
      simp only [List.getD_cons_succ]
      have e4 : (idx + 1 + jj) * f = idx * f + f + jj * f := by ring
      rw [applyIdx_getD]
      split
      · rw [if_neg (by omega)]
      · rename_i hoob
        have hge : out.length ≤ start + (idx + 1 + jj) * f + k := by omega
        rw [List.getD_eq_default _ _ hge]

/-- Decoder characterisation: since frame_size > 0, the sign test on the
correlation sum(frame·pn)/frame_size equals the sign test on the integer
sum itself. -/
theorem algo_spread_spectrum_decode_eq (pn : ℕ → ℤ) (audio : List ℤ)
    (start f : ℕ) (hf : 0 < f) :
    algo_spread_spectrum_decode pn audio start f
      = (List.range ((audio.length - start) / f)).map (fun i =>
          if 0 ≤ ((List.range f).map (fun k =>
              audio.getD (start + i * f + k) 0 * pn k)).sum
          then 1 else 0) := by
  unfold algo_spread_spectrum_decode
  apply List.map_congr_left
  intro i _
  have hfq : (0 : ℚ) < (f : ℚ) := by exact_mod_cast hf
  refine if_congr ?_ rfl rfl
  rw [le_div_iff₀ hfq, zero_mul]
  constructor <;> intro h <;> exact_mod_cast h

/-- C9 (amended). DSSS round-trip: for every carrier in which every
sample satisfies |sample| < 10000 (so no clipping occurs) and which is
long enough for the payload (len ≥ start_offset + payload_bits · 8192),
and in which additionally every frame's carrier-PN correlation stays
below the embedding strength (|Σ frame·pn| < 500·8192), decoding the
DSSS-encoded audio recovers the payload bits exactly.  The 10000-bound
alone does not suffice: a carrier correlated with the PN sequence
overwhelms the ±500 embedding (see the counterexample). -/
theorem c9_dsss_roundtrip_amended (pn : ℕ → ℤ)
    (hpn : ∀ i, pn i = 1 ∨ pn i = -1)
    (audio : List ℤ) (bits : List ℕ) (start : ℕ)
    (hb : ∀ x ∈ bits, x ≤ 1)
    (hlen : start + bits.length * 8192 ≤ audio.length)
    (hamp : ∀ s ∈ audio, s.natAbs < 10000)
    (hcorr : ∀ j, j < bits.length →
      (((List.range 8192).map (fun k =>
          audio.getD (start + j * 8192 + k) 0 * pn k)).sum).natAbs
        < 500 * 8192) :
    (algo_spread_spectrum_decode pn
        (algo_spread_spectrum_encode pn audio bits start 8192)
        start 8192).take bits.length = bits := by
  have henc : algo_spread_spectrum_encode pn audio bits start 8192
      = (sse_loop pn audio.length start 8192 bits 0 audio).map clip16 := by
    unfold algo_spread_spectrum_encode
    rw [if_neg (by omega)]
  rw [henc]
  have hLen : ((sse_loop pn audio.length start 8192 bits 0 audio).map
      clip16).length = audio.length := by
    rw [List.length_map, sse_loop_length]
  have hval : ∀ j k, j < bits.length → k < 8192 →
      ((sse_loop pn audio.length start 8192 bits 0 audio).map clip16).getD
          (start + j * 8192 + k) 0
        = audio.getD (start + j * 8192 + k) 0
          + (if bits.getD j 0 = 1 then 500 else -500) * pn k := by
    intro j k hj hk
    have h1 : (j + 1) * 8192 = j * 8192 + 8192 := by ring
    have h2 : (j + 1) * 8192 ≤ bits.length * 8192 :=
      Nat.mul_le_mul_right _ (by omega)
    have hidx : start + j * 8192 + k < audio.length := by omega
    rw [getD_map_of_lt clip16 _ _ 0 0 (by rw [sse_loop_length]; exact hidx)]
    have e : start + (0 + j) * 8192 + k = start + j * 8192 + k := by ring
    have hframe := sse_loop_getD_frame pn audio.length start 8192 bits 0
      audio j k hj hk rfl
      (by have e2 : (0 + bits.length) * 8192 = bits.length * 8192 := by ring
          omega)
    rw [e] at hframe
    rw [hframe]
    have hmem := hamp (audio.getD (start + j * 8192 + k) 0)
      (getD_mem_of_lt _ _ _ hidx)
    have hδ : (if bits.getD j 0 = 1 then (500 : ℤ) else -500) = 500
        ∨ (if bits.getD j 0 = 1 then (500 : ℤ) else -500) = -500 := by
      split
      · exact Or.inl rfl
      · exact Or.inr rfl
    have hbound : -32768 ≤ audio.getD (start + j * 8192 + k) 0
          + (if bits.getD j 0 = 1 then (500 : ℤ) else -500) * pn k
        ∧ audio.getD (start + j * 8192 + k) 0
          + (if bits.getD j 0 = 1 then (500 : ℤ) else -500) * pn k ≤ 32767 := by
      rcases hδ with h | h <;> rcases hpn k with h' | h' <;>
        rw [h, h'] <;> omega
    exact clip16_eq_self _ hbound.1 hbound.2
  rw [algo_spread_spectrum_decode_eq pn _ start 8192 (by norm_num)]
  rw [hLen]
  have hq : bits.length ≤ (audio.length - start) / 8192 := by
    refine (Nat.le_div_iff_mul_le (by norm_num)).mpr ?_
    omega
  rw [← List.map_take, List.take_range, min_eq_left hq]
  apply List.ext_getElem
  · simp
  intro i h1 h2
  rw [List.getElem_map, List.getElem_range]
  have hi : i < bits.length := h2
  have hsum : ((List.range 8192).map (fun k =>
      ((sse_loop pn audio.length start 8192 bits 0 audio).map clip16).getD
        (start + i * 8192 + k) 0 * pn k)).sum
      = ((List.range 8192).map (fun k =>
          audio.getD (start + i * 8192 + k) 0 * pn k)).sum
        + 8192 * (if bits.getD i 0 = 1 then 500 else -500) := by
    have hstep1 : ∀ k, k < 8192 →
        ((sse_loop pn audio.length start 8192 bits 0 audio).map clip16).getD
            (start + i * 8192 + k) 0 * pn k
          = audio.getD (start + i * 8192 + k) 0 * pn k
            + (if bits.getD i 0 = 1 then (500 : ℤ) else -500)
              * (pn k * pn k) := by
      intro k hk
      rw [hval i k hi hk]
      ring
    have hstep2 : ∀ k, k < 8192 →
        (if bits.getD i 0 = 1 then (500 : ℤ) else -500) * (pn k * pn k)
          = (if bits.getD i 0 = 1 then (500 : ℤ) else -500) := by
      intro k _
      rcases hpn k with h | h <;> rw [h] <;> ring
    rw [sum_map_range_congr
      (fun k =>
        ((sse_loop pn audio.length start 8192 bits 0 audio).map clip16).getD
          (start + i * 8192 + k) 0 * pn k)
      (fun k =>
        audio.getD (start + i * 8192 + k) 0 * pn k
          + (if bits.getD i 0 = 1 then (500 : ℤ) else -500) * (pn k * pn k))
      8192 hstep1]
    rw [sum_map_range_add]
    rw [sum_map_range_congr
      (fun k =>
        (if bits.getD i 0 = 1 then (500 : ℤ) else -500) * (pn k * pn k))
      (fun _ => (if bits.getD i 0 = 1 then (500 : ℤ) else -500))
      8192 hstep2]
    rw [sum_map_range_const]
    norm_num
  rw [hsum]
  have hbi : bits.getD i 0 = bits[i] := by
    rw [List.getD_eq_getElem?_getD, List.getElem?_eq_getElem h2]
    rfl
  have hbit : bits[i] = 0 ∨ bits[i] = 1 := by
    have := hb bits[i] (List.getElem_mem h2)
    omega
  have hC := hcorr i hi
  rcases hbit with h | h
  · rw [hbi, h]
    rw [if_neg (show ¬((0 : ℕ) = 1) by norm_num)]
    rw [if_neg (by omega)]
  · rw [hbi, h]
    rw [if_pos (show (1 : ℕ) = 1 from rfl)]
    rw [if_pos (by omega)]

theorem getD_replicate_lt (n i : ℕ) (c d : ℤ) (h : i < n) :
    (List.replicate n c).getD i d = c := by
  induction n generalizing i with
  | zero => omega
  | succ m ih =>
    cases i with
    | zero => simp [List.replicate_succ]
    | succ j => simpa [List.replicate_succ] using ih j (by omega)

/-- Witness for C9's amended claim: one bit embedded at offset 0 in a
silent 8192-sample carrier. -/
theorem c9_dsss_roundtrip_amended_witness :
    (algo_spread_spectrum_decode pnOne
        (algo_spread_spectrum_encode pnOne (List.replicate 8192 (0 : ℤ))
          [1] 0 8192) 0 8192).take ([1] : List ℕ).length = [1] :=
  c9_dsss_roundtrip_amended pnOne (fun _ => Or.inl rfl)
    (List.replicate 8192 (0 : ℤ)) [1] 0
    (by decide)
    (by rw [List.length_replicate]; decide)
    (by intro s hs; rw [List.eq_of_mem_replicate hs]; norm_num)
    (by
      intro j hj
      have hj0 : j = 0 := by simp at hj; omega
      subst hj0
      have hz : ∀ k, k < 8192 →
          (List.replicate 8192 (0 : ℤ)).getD (0 + 0 * 8192 + k) 0 * pnOne k
            = 0 := by
        intro k hk
        rw [show 0 + 0 * 8192 + k = k by ring]
        rw [getD_replicate_lt 8192 k 0 0 hk]
        ring
      rw [sum_map_range_congr
        (fun k => (List.replicate 8192 (0 : ℤ)).getD (0 + 0 * 8192 + k) 0
          * pnOne k)
        (fun _ => (0 : ℤ)) 8192 hz, sum_map_range_const]
      norm_num)

/-- Counterexample for C9 as stated: a carrier whose payload frame is the
constant 600 (in particular every sample has |s| < 10000 and the carrier
is long enough) correlates with the all-ones PN sequence more strongly
than the ±500 embedding, so the embedded bit 0 decodes as 1. -/
theorem c9_dsss_roundtrip_counterexample :
    (∀ s ∈ List.replicate 1000 (0 : ℤ) ++ List.replicate 8192 (600 : ℤ),
      s.natAbs < 10000) ∧
    1000 + ([0] : List ℕ).length * 8192
        ≤ (List.replicate 1000 (0 : ℤ) ++ List.replicate 8192 (600 : ℤ)).length ∧
    ¬ (algo_spread_spectrum_decode pnOne
        (algo_spread_spectrum_encode pnOne
          (List.replicate 1000 (0 : ℤ) ++ List.replicate 8192 (600 : ℤ))
          [0] 1000 8192) 1000 8192).take ([0] : List ℕ).length
      = [0] := by
  have hAlen : (List.replicate 1000 (0 : ℤ)
      ++ List.replicate 8192 (600 : ℤ)).length = 9192 := by
    rw [List.length_append, List.length_replicate, List.length_replicate]
  refine ⟨?_, by rw [hAlen]; decide, ?_⟩
  · intro s hs
    rcases List.mem_append.mp hs with h | h <;>
      rw [List.eq_of_mem_replicate h] <;> norm_num
  · have henc : algo_spread_spectrum_encode pnOne
        (List.replicate 1000 (0 : ℤ) ++ List.replicate 8192 (600 : ℤ))
        [0] 1000 8192
        = (sse_loop pnOne 9192 1000 8192 [0] 0
            (List.replicate 1000 (0 : ℤ) ++ List.replicate 8192 (600 : ℤ))).map
            clip16 := by
      unfold algo_spread_spectrum_encode
      rw [hAlen]
      rw [if_neg (by decide)]
    have hval : ∀ k, k < 8192 →
        ((sse_loop pnOne 9192 1000 8192 [0] 0
          (List.replicate 1000 (0 : ℤ) ++ List.replicate 8192 (600 : ℤ))).map
          clip16).getD (1000 + 0 * 8192 + k) 0 = 100 := by
      intro k hk
      have hidx : 1000 + 0 * 8192 + k < 9192 := by omega
      rw [getD_map_of_lt clip16 _ _ 0 0
        (by rw [sse_loop_length, hAlen]; omega)]
      rw [sse_loop_getD_frame pnOne 9192 1000 8192 [0] 0 _ 0 k (by norm_num)
        hk hAlen (by norm_num)]
      rw [List.getD_append_right _ _ _ _ (by rw [List.length_replicate]; omega)]
      simp only [List.length_replicate]
      rw [getD_replicate_lt 8192 _ 600 0 (by omega)]
      simp [pnOne]
      decide
    have hEnclen : ((sse_loop pnOne 9192 1000 8192 [0] 0
        (List.replicate 1000 (0 : ℤ)
          ++ List.replicate 8192 (600 : ℤ))).map clip16).length = 9192 := by
      rw [List.length_map, sse_loop_length, hAlen]
    rw [henc]
    rw [algo_spread_spectrum_decode_eq pnOne _ 1000 8192 (by norm_num)]
    rw [hEnclen]
    have hq : (9192 - 1000) / 8192 = 1 := by norm_num
    rw [hq]
    have hsum : ((List.range 8192).map (fun k =>
        ((sse_loop pnOne 9192 1000 8192 [0] 0
          (List.replicate 1000 (0 : ℤ) ++ List.replicate 8192 (600 : ℤ))).map
          clip16).getD (1000 + 0 * 8192 + k) 0 * pnOne k)).sum
        = 8192 * 100 := by
      have h100 : ∀ k, k < 8192 →
          ((sse_loop pnOne 9192 1000 8192 [0] 0
            (List.replicate 1000 (0 : ℤ)
              ++ List.replicate 8192 (600 : ℤ))).map clip16).getD
            (1000 + 0 * 8192 + k) 0 * pnOne k = 100 := by
        intro k hk
        rw [hval k hk]
        simp [pnOne]
      rw [sum_map_range_congr
        (fun k => ((sse_loop pnOne 9192 1000 8192 [0] 0
          (List.replicate 1000 (0 : ℤ)
            ++ List.replicate 8192 (600 : ℤ))).map clip16).getD
          (1000 + 0 * 8192 + k) 0 * pnOne k)
        (fun _ => (100 : ℤ)) 8192 h100, sum_map_range_const]
      norm_num
    rw [show List.range 1 = [0] from rfl]
    simp only [List.map_cons, List.map_nil]
    rw [hsum]
    norm_num

/-! Range lemmas for the encoder outputs. -/

theorem map_quantize_mem_range (l : List ℚ) :
    ∀ x ∈ l.map quantize, -32768 ≤ x ∧ x ≤ 32767 := by
  intro x hx
  rcases List.mem_map.mp hx with ⟨y, _, rfl⟩
  exact quantize_range y

theorem map_clip16_mem_range (l : List ℤ) :
    ∀ x ∈ l.map clip16, -32768 ≤ x ∧ x ≤ 32767 := by
  intro x hx
  rcases List.mem_map.mp hx with ⟨y, _, rfl⟩
  exact clip16_range y

theorem algo_lsb_encode_mem_range (audio : List ℤ) (bits : List ℕ) (k : ℕ)
    (hr : ∀ x ∈ audio, -32768 ≤ x ∧ x ≤ 32767) (hb : ∀ b ∈ bits, b ≤ 1) :
    ∀ x ∈ algo_lsb_encode audio bits k, -32768 ≤ x ∧ x ≤ 32767 := by
  intro x hx
  simp only [algo_lsb_encode] at hx
  rcases List.mem_append.mp hx with h | h
  · exact hr x (List.mem_of_mem_take h)
  · refine lsb_write_mem_range _ _
      (fun z hz => hr z (List.mem_of_mem_drop hz)) ?_ x h
    intro z hz
    split at hz
    · exact hb z (List.mem_of_mem_take hz)
    · exact hb z hz

theorem algo_echo_encode_mem_range (audio : List ℤ) (bits : List ℕ)
    (c d0 d1 : ℕ) (alpha : ℚ) (s : ℕ)
    (hr : ∀ x ∈ audio, -32768 ≤ x ∧ x ≤ 32767) :
    ∀ x ∈ algo_echo_encode audio bits c d0 d1 alpha s,
      -32768 ≤ x ∧ x ≤ 32767 := by
  intro x hx
  unfold algo_echo_encode at hx
  split at hx
  · split at hx
    · exact hr x hx
    · exact map_quantize_mem_range _ x hx
  · exact map_quantize_mem_range _ x hx

theorem algo_phase_encode_mem_range (segT : List ℚ → List ℕ → List ℚ)
    (audio : List ℤ) (bits : List ℕ) (s : ℕ) :
    ∀ x ∈ algo_phase_encode segT audio bits s, -32768 ≤ x ∧ x ≤ 32767 := by
  intro x hx
  unfold algo_phase_encode at hx
  exact map_quantize_mem_range _ x hx

theorem algo_spread_spectrum_encode_mem_range (pn : ℕ → ℤ) (audio : List ℤ)
    (bits : List ℕ) (s f : ℕ)
    (hr : ∀ x ∈ audio, -32768 ≤ x ∧ x ≤ 32767) :
    ∀ x ∈ algo_spread_spectrum_encode pn audio bits s f,
      -32768 ≤ x ∧ x ≤ 32767 := by
  intro x hx
  unfold algo_spread_spectrum_encode at hx
  split at hx
  · split at hx
    · exact hr x hx
    · exact map_clip16_mem_range _ x hx
  · exact map_clip16_mem_range _ x hx

/-- C10. Implicit encoder invariant: every one of the four encode
operations (LSB, Echo, Phase, DSSS), applied to any int16 sample buffer
and any bit array, returns a buffer with exactly the same number of
samples, with every output sample in [-32768, 32767] (the DSP encoders
clip before casting to int16; LSB only rewrites bit 0, so no value ever
leaves the int16 range). -/
theorem c10_encoder_invariants (pn : ℕ → ℤ)
    (segT : List ℚ → List ℕ → List ℚ) (audio : List ℤ) (bits : List ℕ)
    (c d0 d1 start f : ℕ) (alpha : ℚ)
    (hr : ∀ x ∈ audio, -32768 ≤ x ∧ x ≤ 32767)
    (hb : ∀ b ∈ bits, b ≤ 1) :
    ((algo_lsb_encode audio bits start).length = audio.length
      ∧ ∀ x ∈ algo_lsb_encode audio bits start, -32768 ≤ x ∧ x ≤ 32767)
    ∧ ((algo_echo_encode audio bits c d0 d1 alpha start).length = audio.length
      ∧ ∀ x ∈ algo_echo_encode audio bits c d0 d1 alpha start,
          -32768 ≤ x ∧ x ≤ 32767)
    ∧ ((algo_phase_encode segT audio bits start).length = audio.length
      ∧ ∀ x ∈ algo_phase_encode segT audio bits start,
          -32768 ≤ x ∧ x ≤ 32767)
    ∧ ((algo_spread_spectrum_encode pn audio bits start f).length
          = audio.length
      ∧ ∀ x ∈ algo_spread_spectrum_encode pn audio bits start f,
          -32768 ≤ x ∧ x ≤ 32767) :=
  ⟨⟨algo_lsb_encode_length audio bits start,
    algo_lsb_encode_mem_range audio bits start hr hb⟩,
   ⟨algo_echo_encode_length audio bits c d0 d1 alpha start,
    algo_echo_encode_mem_range audio bits c d0 d1 alpha start hr⟩,
   ⟨algo_phase_encode_length segT audio bits start,
    algo_phase_encode_mem_range segT audio bits start⟩,
   ⟨algo_spread_spectrum_encode_length pn audio bits start f,
    algo_spread_spectrum_encode_mem_range pn audio bits start f hr⟩⟩

/-- Witness for C10 on a 2-sample buffer and 2 bits. -/
theorem c10_encoder_invariants_witness :
    ((algo_lsb_encode [100, -200] [1, 0] 0).length
        = ([100, -200] : List ℤ).length
      ∧ ∀ x ∈ algo_lsb_encode [100, -200] [1, 0] 0, -32768 ≤ x ∧ x ≤ 32767)
    ∧ ((algo_echo_encode [100, -200] [1, 0] 1 0 0 (1/2) 0).length
        = ([100, -200] : List ℤ).length
      ∧ ∀ x ∈ algo_echo_encode [100, -200] [1, 0] 1 0 0 (1/2) 0,
          -32768 ≤ x ∧ x ≤ 32767)
    ∧ ((algo_phase_encode segTId [100, -200] [1, 0] 0).length
        = ([100, -200] : List ℤ).length
      ∧ ∀ x ∈ algo_phase_encode segTId [100, -200] [1, 0] 0,
          -32768 ≤ x ∧ x ≤ 32767)
    ∧ ((algo_spread_spectrum_encode pnOne [100, -200] [1, 0] 0 8192).length
        = ([100, -200] : List ℤ).length
      ∧ ∀ x ∈ algo_spread_spectrum_encode pnOne [100, -200] [1, 0] 0 8192,
          -32768 ≤ x ∧ x ≤ 32767) :=
  c10_encoder_invariants pnOne segTId [100, -200] [1, 0] 1 0 0 0 8192 (1/2)
    (by decide) (by decide)
